import Mathlib

/-!
# go-template: parameter map construction, guarded include, execution driver

Shallow embedding of `main.go`.

* Go strings are modelled by Lean `String`s. The only character the program
  inspects is the ASCII `=` (and `_`), which never occurs inside a multi-byte
  UTF-8 sequence, so splitting on characters and on bytes agree.
* A Go `map[string]V` is modelled by a finite map `GoMap V` with extensional
  equality; the `nil` map is `none` of `Option (GoMap V)`.
* A Go result pair `(value, error)` is modelled as a pair of options.
* Library calls (`os.ReadFile`, `filepath.Clean`, `yaml.Unmarshal`,
  `filepath.Base`, the template engine) are parameters.
-/

namespace GoTemplate

/-! ## Go maps -/

/-- A Go `map[string]V`. -/
abbrev GoMap (V : Type) := Finmap (fun _ : String => V)

/-- The map literal `map[string]V{}`. -/
def GoMap.empty {V : Type} : GoMap V := (∅ : Finmap (fun _ : String => V))

/-- The assignment `m[k] = v`. -/
def GoMap.set {V : Type} (m : GoMap V) (k : String) (v : V) : GoMap V :=
  Finmap.insert k v m

/-- The two-result index expression `v, ok := m[k]`. -/
def GoMap.get {V : Type} (m : GoMap V) (k : String) : Option V :=
  Finmap.lookup k m

/-! ## Errors -/

/-- The errors built by `main.go`; library errors are carried as their message. -/
inductive Error where
  /-- The error `fmt.Errorf("expected key=value string, got %q", kvString)`. -/
  | expectedKeyValue (kvString : String)
  /-- The error `fmt.Errorf("key or value cannot be empty, got %q", kvString)`. -/
  | keyOrValueEmpty (kvString : String)
  /-- The error `fmt.Errorf("reading values file: %w", err)`. -/
  | readingValuesFile (cause : String)
  /-- The error `fmt.Errorf("unmarshaling values file: %w", err)`. -/
  | unmarshalingValuesFile (cause : String)
  /-- The error `fmt.Errorf("reading template file: %w", err)`. -/
  | readingTemplateFile (cause : String)
  /-- The error `fmt.Errorf("parsing template file: %w", err)`. -/
  | parsingTemplateFile (cause : String)
  /-- The error `fmt.Errorf("executing template: %w", err)`. -/
  | executingTemplate (cause : Error)
  /-- The error `errors.Wrapf(fmt.Errorf("unable to execute template"),
      "rendering template has a nested reference name: %s", name)` -/
  | nestedReference (name : String)
  /-- The error with which text/template stops a render when the include
  function it called returned `cause` (an `ExecError` wrapping it). -/
  | callingInclude (cause : Error)
  /-- An error returned by the template engine itself. -/
  | engine (msg : String)
  deriving DecidableEq, Repr

/-! ## `strings.SplitN(s, "=", 2)` -/

/-- Split a character list at its first `=`: the part before it and the part
after it, or `none` when there is no `=`. -/
def cutAtEq : List Char → Option (List Char × List Char)
  | [] => none
  | c :: cs =>
    if c = '=' then some ([], cs)
    else match cutAtEq cs with
      | none => none
      | some (k, v) => some (c :: k, v)

/-- The call `strings.SplitN(s, "=", 2)`: at most two substrings, cut at the
first `=`; the string itself, alone, when it holds no `=`. -/
def SplitN (s : String) : List String :=
  match cutAtEq s.data with
  | none => [s]
  | some (k, v) => [String.mk k, String.mk v]

/-! ## `stringArrayToMap` -/

/-- The loop of `stringArrayToMap`, started with the map built so far. -/
def stringArrayToMapLoop : List String → GoMap String → Option (GoMap String) × Option Error
  | [], result => (some result, none)
  | kvString :: rest, result =>
    match SplitN kvString with
    | [p0, p1] =>
      if p0 = "" ∨ p1 = "" then (none, some (Error.keyOrValueEmpty kvString))
      else stringArrayToMapLoop rest (result.set p0 p1)
    | _ => (none, some (Error.expectedKeyValue kvString))

/-- The function `stringArrayToMap(kvStrings []string) (map[string]string, error)`. -/
def stringArrayToMap (kvStrings : List String) : Option (GoMap String) × Option Error :=
  stringArrayToMapLoop kvStrings GoMap.empty

/-! ## `populateParameterMap` -/

/-- The struct `Options`. -/
structure Options where
  /-- list of template files -/
  TemplateFiles : List String
  /-- The flag `--set`. -/
  Values : List String
  /-- The flag `--set-from-file`. -/
  ValueFiles : List String
  OutputFile : String

/-- The values stored in the `Values` map: the raw string of an inline pair, or
the document `yaml.Unmarshal` produced from a file (`Y` is the type of such
documents). -/
inductive Value (Y : Type) where
  | str (s : String)
  | doc (y : Y)
  deriving DecidableEq

/-- The library calls and the runtime behaviour `populateParameterMap` depends on. -/
structure Env (Y : Type) where
  /-- The function `filepath.Clean`. -/
  Clean : String → String
  /-- The function `os.ReadFile`: the content, or the message of the error. -/
  ReadFile : String → Except String String
  /-- The function `yaml.Unmarshal` into a fresh map: the document, or the message of the error. -/
  Unmarshal : String → Except String Y
  /-- The order in which the `for ... range` statements of one call visit the
  entries of a map. Go leaves it unspecified and picks it afresh at each
  statement, so two calls are compared under two orders (`Env.withRange`). -/
  rangeOrder : GoMap String → List (String × String)

/-- What Go guarantees of `range` over a map that the loop body does not
modify: every entry is visited, once. -/
def RangeOK {Y : Type} (env : Env Y) : Prop :=
  ∀ m : GoMap String, ((env.rangeOrder m).map Prod.fst).Nodup ∧
    ∀ k v, (k, v) ∈ env.rangeOrder m ↔ m.get k = some v

/-- The entries a `range` over `m` visits, in order; none for the nil map. -/
def rangeOf {Y : Type} (env : Env Y) : Option (GoMap String) → List (String × String)
  | none => []
  | some m => env.rangeOrder m

/-- The body of the second loop up to the assignment: read the file at
`filepath.Clean(path)` and unmarshal it. -/
def loadValuesFile {Y : Type} (env : Env Y) (path : String) : Except Error Y :=
  match env.ReadFile (env.Clean path) with
  | .error err => .error (Error.readingValuesFile err)
  | .ok buf =>
    match env.Unmarshal buf with
    | .error err => .error (Error.unmarshalingValuesFile err)
    | .ok value => .ok value

/-- The first loop of `populateParameterMap`: `valueMap[key] = value`. -/
def inlineLoop {Y : Type} : List (String × String) → GoMap (Value Y) → GoMap (Value Y)
  | [], valueMap => valueMap
  | (key, value) :: rest, valueMap => inlineLoop rest (valueMap.set key (Value.str value))

/-- The second loop of `populateParameterMap`: the `Values` map after it, or the
error of the first file that fails, at which the function returns. -/
def fileLoop {Y : Type} (env : Env Y) :
    List (String × String) → GoMap (Value Y) → Except Error (GoMap (Value Y))
  | [], valueMap => .ok valueMap
  | (key, path) :: rest, valueMap =>
    match loadValuesFile env path with
    | .error err => .error err
    | .ok value => fileLoop env rest (valueMap.set key (Value.doc value))

/-- The function `populateParameterMap(opts Options) (map[string]interface{}, error)`.
`parameterMap["Values"]` holds a reference to `valueMap`, so the root returned
at the end shows the map as the two loops left it. -/
def populateParameterMap {Y : Type} (env : Env Y) (opts : Options) :
    Option (GoMap (GoMap (Value Y))) × Option Error :=
  let valueMap : GoMap (Value Y) := GoMap.empty
  match stringArrayToMap opts.Values with
  | (_, some err) => (none, some err)
  | (values, none) =>
    let valueMap := inlineLoop (rangeOf env values) valueMap
    match stringArrayToMap opts.ValueFiles with
    | (_, some err) => (none, some err)
    | (values, none) =>
      match fileLoop env (rangeOf env values) valueMap with
      | .error err => (none, some err)
      | .ok valueMap => (some ((GoMap.empty).set "Values" valueMap), none)

/-- The order the sample `range` sorts keys by: lexicographic on the characters. -/
def keyLe (a b : String) : Prop := a.data ≤ b.data

instance : DecidableRel keyLe := fun a b => by
  unfold keyLe; infer_instance

instance : IsTotal String keyLe := ⟨fun a b => le_total a.data b.data⟩

instance : IsTrans String keyLe := ⟨fun _ _ _ h1 h2 => le_trans (α := List Char) h1 h2⟩

instance : IsAntisymm String keyLe :=
  ⟨fun _ _ h1 h2 => String.ext (le_antisymm (α := List Char) h1 h2)⟩

/-- The elements of a multiset of strings, in increasing order. -/
def sortedList (s : Multiset String) : List String :=
  Quot.lift (fun l : List String => l.insertionSort keyLe)
    (fun _ _ h => List.eq_of_perm_of_sorted
      (((List.perm_insertionSort _ _).trans h).trans (List.perm_insertionSort _ _).symm)
      (List.sorted_insertionSort _ _) (List.sorted_insertionSort _ _))
    s

/-- The keys of a map, in increasing order. -/
def sortedKeys {V : Type} (m : GoMap V) : List String := sortedList m.keys.val

/-- A `range` order that satisfies `RangeOK`: by increasing key. -/
def sortedRange (m : GoMap String) : List (String × String) :=
  (sortedKeys m).filterMap (fun k => (m.get k).map (fun v => (k, v)))

/-- Another `range` order that satisfies `RangeOK`: by decreasing key. -/
def reversedRange (m : GoMap String) : List (String × String) :=
  (sortedRange m).reverse

/-- The same library calls and file contents, with another order for `range`. -/
def Env.withRange {Y : Type} (env : Env Y)
    (order : GoMap String → List (String × String)) : Env Y :=
  ⟨env.Clean, env.ReadFile, env.Unmarshal, order⟩

/-! ## `includeFun` -/

/-- Wrap an integer into the range of a 64-bit Go `int`. -/
def wrapInt (x : Int) : Int :=
  (x + 9223372036854775808) % 18446744073709551616 - 9223372036854775808

/-- A Go `int` (64 bits, two's complement). -/
structure GoInt where
  val : Int
  inRange : -9223372036854775808 ≤ val ∧ val < 9223372036854775808
  deriving DecidableEq

/-- The Go `int` an integer wraps to. -/
def GoInt.ofInt (x : Int) : GoInt :=
  ⟨wrapInt x, by unfold wrapInt; omega⟩

/-- The constant `recursionMaxNums`. -/
def recursionMaxNums : Int := 1000

/-- The single-result index expression `m[k]` on a `map[string]int`: the zero
value for an absent key. -/
def GoMap.getZ (m : GoMap GoInt) (k : String) : GoInt :=
  match m.get k with
  | some v => v
  | none => GoInt.ofInt 0

/-- What a call leaves behind: the counter map `includedNames`, the text (the
buffer of `ExecuteTemplate`, the string result of the include function) and
the error. -/
structure Outcome where
  includedNames : GoMap GoInt
  text : String
  err : Option Error

/-- The call `t.ExecuteTemplate(&buf, name, data)` as a state-passing function:
rendering may call the include function, which updates `includedNames`. -/
abbrev Render (D : Type) := String → D → GoMap GoInt → Outcome

/-- The tail of the closure of `includeFun`, from `t.ExecuteTemplate` on:
render, `includedNames[name]--`, return the buffer and the error. -/
def includeRender {D : Type} (ExecuteTemplate : Render D) (name : String) (data : D)
    (includedNames : GoMap GoInt) : Outcome :=
  let r := ExecuteTemplate name data includedNames
  let includedNames := r.includedNames.set name
    (GoInt.ofInt ((r.includedNames.getZ name).val - 1))
  ⟨includedNames, r.text, r.err⟩

/-- The closure returned by `includeFun(t, includedNames)`, applied to `name`
and `data` in the counter state `includedNames`. -/
def includeFun {D : Type} (ExecuteTemplate : Render D) (name : String) (data : D)
    (includedNames : GoMap GoInt) : Outcome :=
  match includedNames.get name with
  | some v =>
    if v.val > recursionMaxNums then
      ⟨includedNames, "", some (Error.nestedReference name)⟩
    else
      includeRender ExecuteTemplate name data
        (includedNames.set name (GoInt.ofInt (v.val + 1)))
  | none =>
    includeRender ExecuteTemplate name data (includedNames.set name (GoInt.ofInt 1))

/-- The number of active invocations recorded for `name`: its counter, an
absent entry counting as 0. -/
def countOf (includedNames : GoMap GoInt) (name : String) : Int :=
  (includedNames.getZ name).val

/-- A render that calls no include function: it writes `rendered` and leaves
the counters alone. -/
def plainRender : Render Unit := fun _ _ includedNames => ⟨includedNames, "rendered", none⟩

/-- The render of a template that includes itself, `depth` levels deep, before it
bottoms out in a plain render. As text/template does, it writes the string the
include function returned, or stops, nothing written, with an error that wraps
the error the include function returned. -/
def selfInclude : Nat → Render Unit
  | 0 => plainRender
  | depth + 1 => fun name data includedNames =>
    let r := includeFun (selfInclude depth) name data includedNames
    match r.err with
    | none => ⟨r.includedNames, r.text, none⟩
    | some err => ⟨r.includedNames, "", some (Error.callingInclude err)⟩

/-! ## `main` -/

/-- The call `strings.HasPrefix(s, pre)`. -/
def HasPrefix (s pre : String) : Bool := pre.data.isPrefixOf s.data

/-- What the run does to the outside, in order. -/
inductive Effect where
  /-- The call `os.WriteFile(name, data, 0600)`, with the error it returned (`none` for
  nil). -/
  | WriteFile (name data : String) (err : Option String)
  /-- The call `fmt.Fprintln(os.Stderr, text)`. -/
  | Fprintln (text : String)
  /-- The call `fmt.Fprintf(os.Stderr, format, err.Error())`. -/
  | Fprintf (format : String) (err : Error)
  /-- The call `pflag.Usage()`. -/
  | Usage
  deriving DecidableEq

/-- A run of the program: its effects and its exit status. -/
structure Run where
  effects : List Effect
  exitCode : Nat
  deriving DecidableEq

/-- The parameter tree handed to the templates. -/
abbrev Params (Y : Type) := Option (GoMap (GoMap (Value Y)))

/-- The library calls `main` depends on, on top of those of
`populateParameterMap`; `T` is the type of a template set. -/
structure Sys (Y T : Type) extends Env Y where
  /-- The function `filepath.Base`. -/
  Base : String → String
  /-- The call `os.WriteFile(name, data, 0600)`: the message of the error, `none` for nil. -/
  WriteFile : String → String → Option String
  /-- The template `template.New("base").Option("missingkey=error")` with the function map. -/
  base : T
  /-- The call `t.New(name).Parse(text)`: the template set with `name` added, or the
  message of the error. -/
  Parse : T → String → String → Except String T
  /-- The call `t.ExecuteTemplate(&buf, name, parameters)`, with the counters of the
  include function before and after. -/
  ExecuteTemplate : T → String → Params Y → GoMap GoInt → Outcome

/-- The function `usageAndExit(err error)`. -/
def usageAndExit (err : Option Error) : Run :=
  match err with
  | some e => ⟨[Effect.Fprintf "Error: %s\n\n" e, Effect.Usage], 2⟩
  | none => ⟨[Effect.Usage], 0⟩

/-- The function `errorAndExit(err error)`. -/
def errorAndExit (err : Error) : Run :=
  ⟨[Effect.Fprintf "Error: %s\n" err], 1⟩

/-- The first loop of `main`: read and parse the templates; the error of the
first one that fails. -/
def readTemplates {Y T : Type} (sys : Sys Y T) : List String → T → Except Error T
  | [], t => .ok t
  | path :: rest, t =>
    let templateName := sys.Base path
    match sys.ReadFile (sys.Clean path) with
    | .error err => .error (Error.readingTemplateFile err)
    | .ok buf =>
      match sys.Parse t templateName buf with
      | .error err => .error (Error.parsingTemplateFile err)
      | .ok t' => readTemplates sys rest t'

/-- The output step of the second loop of `main`: write the buffer to the
output file when one is configured, and print it to standard error otherwise.
The error `os.WriteFile` returns is not looked at. -/
def dispatch {Y T : Type} (sys : Sys Y T) (outputFile text : String) : Effect :=
  if outputFile.length > 0 then
    Effect.WriteFile outputFile text (sys.WriteFile outputFile text)
  else
    Effect.Fprintln text

/-- The second loop of `main`: execute the templates that are not library
templates; the run ends at the first one that fails, and with status 0 after
the last one. -/
def executeTemplates {Y T : Type} (sys : Sys Y T) (t : T) (parameters : Params Y)
    (outputFile : String) : List String → GoMap GoInt → Run
  | [], _ => ⟨[], 0⟩
  | path :: rest, includedNames =>
    let templateName := sys.Base path
    if HasPrefix (sys.Base path) "_" then
      executeTemplates sys t parameters outputFile rest includedNames
    else
      let r := sys.ExecuteTemplate t templateName parameters includedNames
      match r.err with
      | some err => errorAndExit (Error.executingTemplate err)
      | none =>
        let next := executeTemplates sys t parameters outputFile rest r.includedNames
        ⟨dispatch sys outputFile r.text :: next.effects, next.exitCode⟩

/-- The function `main`, from the result of `parseOptions` on. -/
def main {Y T : Type} (sys : Sys Y T) (parseOptions : Options × Option Error) : Run :=
  match parseOptions with
  | (_, some err) => usageAndExit (some err)
  | (opts, none) =>
    match populateParameterMap sys.toEnv opts with
    | (_, some err) => errorAndExit err
    | (parameters, none) =>
      match readTemplates sys opts.TemplateFiles sys.base with
      | .error err => errorAndExit err
      | .ok t => executeTemplates sys t parameters opts.OutputFile opts.TemplateFiles GoMap.empty

/-! ## Vocabulary of the claims on the execution driver -/

/-- The template paths whose base name does not begin with `_`, in input order. -/
def shownPaths {Y T : Type} (sys : Sys Y T) (paths : List String) : List String :=
  paths.filter (fun path => !HasPrefix (sys.Base path) "_")

/-- The renders of a list of templates, one after the other. -/
def renderAll {Y T : Type} (sys : Sys Y T) (t : T) (parameters : Params Y) :
    List String → GoMap GoInt → List Outcome
  | [], _ => []
  | path :: rest, includedNames =>
    let r := sys.ExecuteTemplate t (sys.Base path) parameters includedNames
    r :: renderAll sys t parameters rest r.includedNames

/-- The content of the file `name` after a list of effects, `content` being
what it held before (`none` for no file): a write that succeeds replaces the
content, a write that fails leaves it. -/
def fileAfter (name : String) : List Effect → Option String → Option String
  | [], content => content
  | Effect.WriteFile n data none :: rest, content =>
    fileAfter name rest (if n = name then some data else content)
  | _ :: rest, content => fileAfter name rest content

/-- A sample system: the templates `a.tmpl`, `_lib.tmpl` and `b.tmpl` render to
their own name, the template `bad.tmpl` fails to render, and only the output
file `out.txt` can be written. -/
def sampleSys : Sys String Unit where
  Clean := fun p => p
  ReadFile := fun p => .ok p
  Unmarshal := fun buf => .ok buf
  rangeOrder := sortedRange
  Base := fun p => p
  WriteFile := fun name _ => if name = "out.txt" then none else some "permission denied"
  base := ()
  Parse := fun _ _ _ => .ok ()
  ExecuteTemplate := fun _ name _ includedNames =>
    if name = "bad.tmpl" then ⟨includedNames, "", some (Error.engine "map has no entry for key")⟩
    else ⟨includedNames, name, none⟩

/-! ## Vocabulary of the key=value claims -/

/-- The substring before the first `=` of `s` (all of `s` when it has none). -/
def keyOf (s : String) : String := String.mk (s.data.takeWhile (fun c => c ≠ '='))

/-- The whole substring after the first `=` of `s` (empty when it has none). -/
def valueOf (s : String) : String := String.mk ((s.data.dropWhile (fun c => c ≠ '=')).drop 1)

/-- A string that the key=value format rejects: no `=`, or an empty key, or an
empty value. -/
def Malformed (s : String) : Prop := '=' ∉ s.data ∨ keyOf s = "" ∨ valueOf s = ""

instance (s : String) : Decidable (Malformed s) := by
  unfold Malformed; infer_instance

/-- A well-formed `key=value` string: it has an `=`, a non-empty key before the
first one and a non-empty value after it. -/
def WellFormed (s : String) : Prop := '=' ∈ s.data ∧ keyOf s ≠ "" ∧ valueOf s ≠ ""

instance (s : String) : Decidable (WellFormed s) := by
  unfold WellFormed; infer_instance

/-- The map the loop of `stringArrayToMap` builds from a list without malformed
strings: every assignment `result[key] = value`, in input order. -/
def assignAll (kvs : List String) (m : GoMap String) : GoMap String :=
  kvs.foldl (fun acc s => acc.set (keyOf s) (valueOf s)) m

/-- A sample environment: the file `good.yaml` holds `foo: bar`, every other
path is missing; a document is modelled by its text. -/
def sampleEnv : Env String where
  Clean := fun p => p
  ReadFile := fun p => if p = "good.yaml" then .ok "foo: bar" else .error "no such file"
  Unmarshal := fun buf => if buf = "foo: bar" then .ok buf else .error "cannot unmarshal"
  rangeOrder := sortedRange

/-- An environment without files: reading a path fails with an error that
names the path. -/
def missingEnv : Env String where
  Clean := fun p => p
  ReadFile := fun p => .error ("open " ++ p ++ ": no such file or directory")
  Unmarshal := fun buf => .ok buf
  rangeOrder := sortedRange

/-! ## Lemmas on splitting -/

theorem cutAtEq_eq (l : List Char) :
    cutAtEq l = if '=' ∈ l then
      some (l.takeWhile (fun c => c ≠ '='), (l.dropWhile (fun c => c ≠ '=')).drop 1)
    else none := by
  induction l with
  | nil => simp [cutAtEq]
  | cons c cs ih =>
    by_cases hc : c = '='
    · subst hc
      simp [cutAtEq, List.takeWhile, List.dropWhile]
    · have hc2 : ¬ ('=' = c) := fun h => hc h.symm
      by_cases hm : '=' ∈ cs
      · simp [cutAtEq, hc, hc2, ih, hm, List.takeWhile, List.dropWhile]
      · simp [cutAtEq, hc, hc2, ih, hm]

theorem SplitN_of_mem (s : String) (h : '=' ∈ s.data) : SplitN s = [keyOf s, valueOf s] := by
  simp [SplitN, cutAtEq_eq, h, keyOf, valueOf]

theorem SplitN_of_not_mem (s : String) (h : '=' ∉ s.data) : SplitN s = [s] := by
  simp [SplitN, cutAtEq_eq, h]

/-- The key and the value really are the two sides of the first `=`. -/
theorem key_eq_value (s : String) (h : '=' ∈ s.data) :
    s.data = (keyOf s).data ++ '=' :: (valueOf s).data ∧ '=' ∉ (keyOf s).data := by
  have h1 : ∀ l : List Char, '=' ∈ l →
      l = l.takeWhile (fun c => c ≠ '=') ++ '=' :: (l.dropWhile (fun c => c ≠ '=')).drop 1 := by
    intro l
    induction l with
    | nil => simp
    | cons c cs ih =>
      intro hm
      by_cases hc : c = '='
      · subst hc; simp [List.takeWhile, List.dropWhile]
      · have hm2 : '=' ∈ cs := by
          rcases List.mem_cons.1 hm with h | h
          · exact absurd h.symm hc
          · exact h
        have := ih hm2
        simpa [List.takeWhile, List.dropWhile, hc] using this
  have h2 : ∀ l : List Char, '=' ∉ l.takeWhile (fun c => c ≠ '=') := by
    intro l hm
    have := List.mem_takeWhile_imp hm
    simp at this
  exact ⟨h1 s.data h, h2 s.data⟩

/-- Later `=` characters stay in the value: for `k` without `=`, the string
`k=v` has key `k` and value `v`, whatever `v` holds. -/
theorem keyOf_valueOf_mk (k v : List Char) (hk : '=' ∉ k) :
    keyOf (String.mk (k ++ '=' :: v)) = String.mk k ∧
    valueOf (String.mk (k ++ '=' :: v)) = String.mk v := by
  have h1 : ∀ k : List Char, '=' ∉ k →
      (k ++ '=' :: v).takeWhile (fun c => c ≠ '=') = k ∧
      ((k ++ '=' :: v).dropWhile (fun c => c ≠ '=')).drop 1 = v := by
    intro k
    induction k with
    | nil => intro _; simp [List.takeWhile, List.dropWhile]
    | cons c cs ih =>
      intro hm
      have hc : c ≠ '=' := fun h => hm (by simp [h])
      have hcs : '=' ∉ cs := fun h => hm (List.mem_cons_of_mem _ h)
      have := ih hcs
      simpa [List.takeWhile, List.dropWhile, hc] using this
  have := h1 k hk
  exact ⟨congrArg String.mk this.1, congrArg String.mk this.2⟩

/-! ## Lemmas on the loop of `stringArrayToMap` -/

theorem loop_cons_malformed (s : String) (rest : List String) (m : GoMap String)
    (h : Malformed s) :
    ∃ e, stringArrayToMapLoop (s :: rest) m = (none, some e) := by
  by_cases hm : '=' ∈ s.data
  · have hkv : keyOf s = "" ∨ valueOf s = "" := by
      rcases h with h | h
      · exact absurd hm h
      · exact h
    exact ⟨Error.keyOrValueEmpty s, by simp [stringArrayToMapLoop, SplitN_of_mem s hm, hkv]⟩
  · exact ⟨Error.expectedKeyValue s, by simp [stringArrayToMapLoop, SplitN_of_not_mem s hm]⟩

theorem loop_cons_ok (s : String) (rest : List String) (m : GoMap String)
    (h : ¬ Malformed s) :
    stringArrayToMapLoop (s :: rest) m =
      stringArrayToMapLoop rest (m.set (keyOf s) (valueOf s)) := by
  have hm : '=' ∈ s.data := by
    by_contra hm; exact h (Or.inl hm)
  have hkv : ¬ (keyOf s = "" ∨ valueOf s = "") := fun hkv => h (Or.inr hkv)
  simp [stringArrayToMapLoop, SplitN_of_mem s hm, hkv]

theorem loop_ok (kvs : List String) (m : GoMap String) (h : ∀ s ∈ kvs, ¬ Malformed s) :
    stringArrayToMapLoop kvs m = (some (assignAll kvs m), none) := by
  induction kvs generalizing m with
  | nil => simp [stringArrayToMapLoop, assignAll]
  | cons s rest ih =>
    rw [loop_cons_ok s rest m (h s (List.mem_cons_self _ _))]
    rw [ih _ (fun t ht => h t (List.mem_cons_of_mem _ ht))]
    simp [assignAll]

theorem loop_err (kvs : List String) (m : GoMap String) (h : ∃ s ∈ kvs, Malformed s) :
    ∃ e, stringArrayToMapLoop kvs m = (none, some e) := by
  induction kvs generalizing m with
  | nil => simp at h
  | cons s rest ih =>
    by_cases hs : Malformed s
    · exact loop_cons_malformed s rest m hs
    · rw [loop_cons_ok s rest m hs]
      apply ih
      obtain ⟨t, ht, htm⟩ := h
      rcases List.mem_cons.1 ht with h1 | h1
      · subst h1; exact absurd htm hs
      · exact ⟨t, h1, htm⟩

theorem get_set_self {V : Type} (m : GoMap V) (k : String) (v : V) :
    (m.set k v).get k = some v := by
  simp [GoMap.set, GoMap.get]

theorem get_set_of_ne {V : Type} (m : GoMap V) (k k' : String) (v : V) (h : k' ≠ k) :
    (m.set k v).get k' = m.get k' := by
  simp [GoMap.set, GoMap.get, Finmap.lookup_insert_of_ne _ h]

theorem get_empty {V : Type} (k : String) : (GoMap.empty : GoMap V).get k = none := by
  simp [GoMap.empty, GoMap.get]

theorem mem_keys_iff_get {V : Type} (m : GoMap V) (k : String) :
    k ∈ m.keys ↔ m.get k ≠ none := by
  rw [Finmap.mem_keys, GoMap.get, Ne, Finmap.lookup_eq_none, not_not]

theorem GoMap.ext_get {V : Type} {m₁ m₂ : GoMap V} (h : ∀ k, m₁.get k = m₂.get k) : m₁ = m₂ :=
  Finmap.ext_lookup h

theorem assignAll_get_not_key (kvs : List String) (m : GoMap String) (k : String)
    (h : ∀ t ∈ kvs, keyOf t ≠ k) : (assignAll kvs m).get k = m.get k := by
  induction kvs generalizing m with
  | nil => simp [assignAll]
  | cons s rest ih =>
    have h1 := ih (m.set (keyOf s) (valueOf s)) (fun t ht => h t (List.mem_cons_of_mem _ ht))
    have h2 : k ≠ keyOf s := fun e => h s (List.mem_cons_self _ _) e.symm
    simp only [assignAll, List.foldl_cons] at h1 ⊢
    rw [h1, get_set_of_ne _ _ _ _ h2]

theorem assignAll_append (pre post : List String) (m : GoMap String) :
    assignAll (pre ++ post) m = assignAll post (assignAll pre m) := by
  simp [assignAll, List.foldl_append]

theorem assignAll_get_last (pre post : List String) (s : String) (m : GoMap String)
    (h : ∀ t ∈ post, keyOf t ≠ keyOf s) :
    (assignAll (pre ++ s :: post) m).get (keyOf s) = some (valueOf s) := by
  rw [assignAll_append]
  show (assignAll post ((assignAll pre m).set (keyOf s) (valueOf s))).get (keyOf s) = _
  rw [assignAll_get_not_key post _ _ h, get_set_self]

theorem assignAll_keys (kvs : List String) (m : GoMap String) (k : String) :
    (assignAll kvs m).get k ≠ none ↔ (m.get k ≠ none ∨ ∃ s ∈ kvs, keyOf s = k) := by
  induction kvs generalizing m with
  | nil => simp [assignAll]
  | cons s rest ih =>
    have h1 := ih (m.set (keyOf s) (valueOf s))
    simp only [assignAll, List.foldl_cons] at h1 ⊢
    rw [h1]
    by_cases hk : k = keyOf s
    · subst hk
      simp [get_set_self]
    · rw [get_set_of_ne _ _ _ _ hk]
      constructor
      · rintro (h | ⟨t, ht, hkt⟩)
        · exact Or.inl h
        · exact Or.inr ⟨t, List.mem_cons_of_mem _ ht, hkt⟩
      · rintro (h | ⟨t, ht, hkt⟩)
        · exact Or.inl h
        · rcases List.mem_cons.1 ht with h2 | h2
          · subst h2; exact absurd hkt.symm hk
          · exact Or.inr ⟨t, h2, hkt⟩

theorem not_malformed_of_wellFormed (s : String) (h : WellFormed s) : ¬ Malformed s := by
  rintro (h1 | h1 | h1)
  · exact h1 h.1
  · exact h.2.1 h1
  · exact h.2.2 h1

/-! ## Lemmas on the range order -/

theorem mem_sortedList (s : Multiset String) (k : String) : k ∈ sortedList s ↔ k ∈ s := by
  induction s using Quot.inductionOn with
  | h l =>
    show k ∈ l.insertionSort keyLe ↔ k ∈ (l : Multiset String)
    rw [(List.perm_insertionSort _ l).mem_iff]
    rfl

theorem nodup_sortedList (s : Multiset String) (h : s.Nodup) : (sortedList s).Nodup := by
  induction s using Quot.inductionOn with
  | h l =>
    show (l.insertionSort keyLe).Nodup
    rw [(List.perm_insertionSort _ l).nodup_iff]
    exact h

theorem map_fst_filterMap_get {V : Type} (m : GoMap V) (l : List String) :
    (l.filterMap (fun k => (m.get k).map (fun v => (k, v)))).map Prod.fst =
      l.filter (fun k => (m.get k).isSome) := by
  induction l with
  | nil => rfl
  | cons k rest ih =>
    cases hk : m.get k with
    | none => simp [List.filterMap_cons, hk, ih]
    | some v => simp [List.filterMap_cons, hk, ih]

theorem sortedRange_nodup (m : GoMap String) : ((sortedRange m).map Prod.fst).Nodup := by
  rw [sortedRange, map_fst_filterMap_get]
  exact (nodup_sortedList _ m.keys.nodup).filter _

theorem mem_sortedRange (m : GoMap String) (k v : String) :
    (k, v) ∈ sortedRange m ↔ m.get k = some v := by
  rw [sortedRange, List.mem_filterMap]
  constructor
  · rintro ⟨k', _, hk'⟩
    cases hg : m.get k' with
    | none => simp [hg] at hk'
    | some v' =>
      simp only [hg, Option.map_some', Option.some.injEq, Prod.mk.injEq] at hk'
      obtain ⟨rfl, rfl⟩ := hk'
      exact hg
  · intro h
    refine ⟨k, ?_, by simp [h]⟩
    rw [sortedKeys, mem_sortedList]
    exact (mem_keys_iff_get m k).2 (by simp [h])

/-- The sorted order is an order `range` may take. -/
theorem rangeOK_of_sortedRange {Y : Type} (env : Env Y) (h : env.rangeOrder = sortedRange) :
    RangeOK env := by
  intro m
  rw [h]
  exact ⟨sortedRange_nodup m, mem_sortedRange m⟩

/-- The reversed sorted order is an order `range` may take. -/
theorem rangeOK_of_reversedRange {Y : Type} (env : Env Y) (h : env.rangeOrder = reversedRange) :
    RangeOK env := by
  intro m
  rw [h, reversedRange]
  refine ⟨?_, fun k v => ?_⟩
  · rw [List.map_reverse, List.nodup_reverse]
    exact sortedRange_nodup m
  · rw [List.mem_reverse]
    exact mem_sortedRange m k v

/-! ## Lemmas on the loops of `populateParameterMap` -/

theorem inlineLoop_get_of_not_mem {Y : Type} (l : List (String × String))
    (vm : GoMap (Value Y)) (k : String) (h : k ∉ l.map Prod.fst) :
    (inlineLoop l vm).get k = vm.get k := by
  induction l generalizing vm with
  | nil => rfl
  | cons e rest ih =>
    obtain ⟨key, value⟩ := e
    have h1 : k ≠ key := fun e => h (by simp [e])
    have h2 : k ∉ rest.map Prod.fst := fun e => h (by simp at e ⊢; exact Or.inr e)
    rw [inlineLoop, ih _ h2, get_set_of_ne _ _ _ _ h1]

theorem inlineLoop_get_of_mem {Y : Type} (l : List (String × String))
    (vm : GoMap (Value Y)) (k v : String) (hnd : (l.map Prod.fst).Nodup) (h : (k, v) ∈ l) :
    (inlineLoop l vm).get k = some (Value.str v) := by
  induction l generalizing vm with
  | nil => simp at h
  | cons e rest ih =>
    obtain ⟨key, value⟩ := e
    rw [List.map_cons, List.nodup_cons] at hnd
    rcases List.mem_cons.1 h with h1 | h1
    · obtain ⟨rfl, rfl⟩ := Prod.mk.inj h1
      rw [inlineLoop, inlineLoop_get_of_not_mem _ _ _ hnd.1, get_set_self]
    · rw [inlineLoop]
      exact ih _ hnd.2 h1

theorem fileLoop_ok {Y : Type} (env : Env Y) (l : List (String × String))
    (vm : GoMap (Value Y))
    (hall : ∀ e ∈ l, ∃ y, loadValuesFile env e.2 = .ok y) :
    ∃ vm', fileLoop env l vm = .ok vm' ∧
      (∀ k, k ∉ l.map Prod.fst → vm'.get k = vm.get k) ∧
      ((l.map Prod.fst).Nodup → ∀ k path, (k, path) ∈ l →
        ∃ y, loadValuesFile env path = .ok y ∧ vm'.get k = some (Value.doc y)) := by
  induction l generalizing vm with
  | nil => exact ⟨vm, rfl, fun _ _ => rfl, fun _ _ _ h => by simp at h⟩
  | cons e rest ih =>
    obtain ⟨key, path⟩ := e
    obtain ⟨y, hy⟩ := hall (key, path) (List.mem_cons_self _ _)
    obtain ⟨vm', h1, h2, h3⟩ := ih (vm.set key (Value.doc y))
      (fun e he => hall e (List.mem_cons_of_mem _ he))
    refine ⟨vm', ?_, ?_, ?_⟩
    · simp only [fileLoop]
      simp only [] at hy
      rw [hy]
      exact h1
    · intro k hk
      have hk1 : k ≠ key := fun e => hk (by simp [e])
      have hk2 : k ∉ rest.map Prod.fst := fun e => hk (by simp at e ⊢; exact Or.inr e)
      rw [h2 k hk2, get_set_of_ne _ _ _ _ hk1]
    · intro hnd k p hmem
      rw [List.map_cons, List.nodup_cons] at hnd
      rcases List.mem_cons.1 hmem with h4 | h4
      · obtain ⟨rfl, rfl⟩ := Prod.mk.inj h4
        exact ⟨y, hy, by rw [h2 _ hnd.1, get_set_self]⟩
      · exact h3 hnd.2 k p h4

theorem fileLoop_err {Y : Type} (env : Env Y) (l : List (String × String))
    (vm : GoMap (Value Y))
    (hex : ∃ e ∈ l, ∀ y, loadValuesFile env e.2 ≠ .ok y) :
    ∃ err, fileLoop env l vm = .error err := by
  induction l generalizing vm with
  | nil => simp at hex
  | cons e rest ih =>
    obtain ⟨key, path⟩ := e
    cases hload : loadValuesFile env path with
    | error err => exact ⟨err, by simp [fileLoop, hload]⟩
    | ok y =>
      simp only [fileLoop, hload]
      apply ih
      obtain ⟨e, he, hbad⟩ := hex
      rcases List.mem_cons.1 he with h1 | h1
      · subst h1; exact absurd hload (hbad y)
      · exact ⟨e, h1, hbad⟩

theorem mem_range_keys {Y : Type} (env : Env Y) (hr : RangeOK env) (m : GoMap String)
    (k : String) : k ∈ (env.rangeOrder m).map Prod.fst ↔ ∃ v, m.get k = some v := by
  constructor
  · intro h
    obtain ⟨e, he, hk⟩ := List.mem_map.1 h
    obtain ⟨k', v⟩ := e
    simp only at hk
    subst hk
    exact ⟨v, ((hr m).2 k' v).1 he⟩
  · rintro ⟨v, hv⟩
    exact List.mem_map.2 ⟨(k, v), ((hr m).2 k v).2 hv, rfl⟩

/-- The result of `populateParameterMap` when both lists parse and every file
of the file map loads, in terms of the two parsed maps. -/
theorem populate_of_maps {Y : Type} (env : Env Y) (hr : RangeOK env) (opts : Options)
    (im fm : GoMap String)
    (h1 : stringArrayToMap opts.Values = (some im, none))
    (h2 : stringArrayToMap opts.ValueFiles = (some fm, none))
    (hload : ∀ k path, fm.get k = some path → ∃ y, loadValuesFile env path = .ok y) :
    ∃ vm : GoMap (Value Y),
      populateParameterMap env opts = (some ((GoMap.empty).set "Values" vm), none) ∧
      (∀ k path, fm.get k = some path →
        ∃ y, loadValuesFile env path = .ok y ∧ vm.get k = some (Value.doc y)) ∧
      (∀ k, fm.get k = none → vm.get k = (im.get k).map Value.str) := by
  obtain ⟨vm, hvm, hout, hin⟩ := fileLoop_ok env (env.rangeOrder fm)
    (inlineLoop (env.rangeOrder im) GoMap.empty)
    (fun e he => hload e.1 e.2 (((hr fm).2 e.1 e.2).1 he))
  refine ⟨vm, ?_, ?_, ?_⟩
  · simp only [populateParameterMap, h1, h2, rangeOf, hvm]
  · intro k path hk
    exact hin (hr fm).1 k path (((hr fm).2 k path).2 hk)
  · intro k hk
    have hnot : k ∉ (env.rangeOrder fm).map Prod.fst := by
      rw [mem_range_keys env hr]
      rintro ⟨v, hv⟩
      rw [hk] at hv
      exact Option.noConfusion hv
    rw [hout k hnot]
    cases hik : im.get k with
    | none =>
      have hnot2 : k ∉ (env.rangeOrder im).map Prod.fst := by
        rw [mem_range_keys env hr]
        rintro ⟨v, hv⟩
        rw [hik] at hv
        exact Option.noConfusion hv
      rw [inlineLoop_get_of_not_mem _ _ _ hnot2, get_empty]
      rfl
    | some v =>
      rw [inlineLoop_get_of_mem _ _ k v (hr im).1 (((hr im).2 k v).2 hik)]
      rfl

/-- The result of `populateParameterMap` when a file of the file map does not load. -/
theorem populate_err_of_maps {Y : Type} (env : Env Y) (hr : RangeOK env) (opts : Options)
    (im : Option (GoMap String)) (fm : GoMap String)
    (h1 : stringArrayToMap opts.Values = (im, none))
    (h2 : stringArrayToMap opts.ValueFiles = (some fm, none))
    (hbad : ∃ k path, fm.get k = some path ∧ ∀ y, loadValuesFile env path ≠ .ok y) :
    ∃ err, populateParameterMap env opts = (none, some err) := by
  obtain ⟨k, path, hk, hy⟩ := hbad
  obtain ⟨err, herr⟩ := fileLoop_err env (env.rangeOrder fm)
    (inlineLoop (rangeOf env im) GoMap.empty)
    ⟨(k, path), ((hr fm).2 k path).2 hk, hy⟩
  refine ⟨err, ?_⟩
  simp only [populateParameterMap, h1, h2]
  rw [show rangeOf env (some fm) = env.rangeOrder fm from rfl, herr]

theorem fileLoop_error_mem {Y : Type} (env : Env Y) (l : List (String × String))
    (vm : GoMap (Value Y)) (err : Error) (h : fileLoop env l vm = .error err) :
    ∃ e ∈ l, loadValuesFile env e.2 = .error err := by
  induction l generalizing vm with
  | nil => simp [fileLoop] at h
  | cons e rest ih =>
    obtain ⟨key, path⟩ := e
    cases hload : loadValuesFile env path with
    | error err' =>
      simp only [fileLoop, hload, Except.error.injEq] at h
      subst h
      exact ⟨(key, path), List.mem_cons_self _ _, hload⟩
    | ok y =>
      simp only [fileLoop, hload] at h
      obtain ⟨e, he, hl⟩ := ih _ h
      exact ⟨e, List.mem_cons_of_mem _ he, hl⟩

/-- When both lists parse, an error of `populateParameterMap` is the error of a
file of the file map. -/
theorem populate_err_source {Y : Type} (env : Env Y) (hr : RangeOK env) (opts : Options)
    (im : Option (GoMap String)) (fm : GoMap String)
    (h1 : stringArrayToMap opts.Values = (im, none))
    (h2 : stringArrayToMap opts.ValueFiles = (some fm, none))
    (err : Error) (h : (populateParameterMap env opts).2 = some err) :
    ∃ k path, fm.get k = some path ∧ loadValuesFile env path = .error err := by
  simp only [populateParameterMap, h1, h2] at h
  cases hfl : fileLoop env (rangeOf env (some fm)) (inlineLoop (rangeOf env im) GoMap.empty) with
  | error e =>
    rw [hfl] at h
    simp only [Option.some.injEq] at h
    subst h
    obtain ⟨⟨k, path⟩, hmem, hload⟩ := fileLoop_error_mem env _ _ _ hfl
    exact ⟨k, path, ((hr fm).2 k path).1 hmem, hload⟩
  | ok vm =>
    rw [hfl] at h
    simp at h

/-- Either `stringArrayToMap` succeeds with the map of all assignments, or it
fails with the nil map. -/
theorem stringArrayToMap_cases (kvs : List String) :
    stringArrayToMap kvs = (some (assignAll kvs GoMap.empty), none) ∨
    ∃ err, stringArrayToMap kvs = (none, some err) := by
  by_cases h : ∃ s ∈ kvs, Malformed s
  · exact Or.inr (loop_err kvs _ h)
  · exact Or.inl (loop_ok kvs _ (fun s hs hm => h ⟨s, hs, hm⟩))

/-- A list holding an element with property `p` splits at its last such element. -/
theorem exists_last_split {α : Type} (p : α → Prop) (l : List α) (h : ∃ a ∈ l, p a) :
    ∃ pre a post, l = pre ++ a :: post ∧ p a ∧ ∀ b ∈ post, ¬ p b := by
  induction l with
  | nil => simp at h
  | cons x rest ih =>
    by_cases hr : ∃ a ∈ rest, p a
    · obtain ⟨pre, a, post, hl, hp, hpost⟩ := ih hr
      exact ⟨x :: pre, a, post, by simp [hl], hp, hpost⟩
    · obtain ⟨a, ha, hpa⟩ := h
      rcases List.mem_cons.1 ha with h1 | h1
      · subst h1
        exact ⟨[], a, rest, rfl, hpa, fun b hb hpb => hr ⟨b, hb, hpb⟩⟩
      · exact absurd ⟨a, h1, hpa⟩ hr

/-- An entry of the map of all assignments comes from the last string with its key. -/
theorem assignAll_get_some (kvs : List String) (k v : String)
    (h : (assignAll kvs GoMap.empty).get k = some v) :
    ∃ pre s post, kvs = pre ++ s :: post ∧ keyOf s = k ∧ valueOf s = v ∧
      ∀ t ∈ post, keyOf t ≠ k := by
  have hne : (assignAll kvs GoMap.empty).get k ≠ none := by simp [h]
  rw [assignAll_keys] at hne
  have hex : ∃ s ∈ kvs, keyOf s = k := by
    rcases hne with h1 | h1
    · exact absurd (get_empty k) h1
    · exact h1
  obtain ⟨pre, s, post, hl, hs, hpost⟩ := exists_last_split (fun s => keyOf s = k) kvs hex
  refine ⟨pre, s, post, hl, hs, ?_, hpost⟩
  subst hs
  subst hl
  rw [assignAll_get_last pre post s _ hpost] at h
  exact Option.some.inj h

theorem assignAll_get_none (kvs : List String) (k : String) :
    (assignAll kvs GoMap.empty).get k = none ↔ ∀ s ∈ kvs, keyOf s ≠ k := by
  have h := assignAll_keys kvs GoMap.empty k
  simp only [get_empty, ne_eq, not_true_eq_false, false_or] at h
  constructor
  · intro hn s hs hk
    exact (h.2 ⟨s, hs, hk⟩) hn
  · intro hall
    by_contra hn
    obtain ⟨s, hs, hk⟩ := h.1 hn
    exact hall s hs hk

/-- On well-formed lists with pairwise distinct keys, `stringArrayToMap` does not
depend on the order of the list. -/
theorem stringArrayToMap_perm (l l' : List String) (hp : l'.Perm l)
    (hwf : ∀ s ∈ l, WellFormed s) (hnd : (l.map keyOf).Nodup) :
    stringArrayToMap l' = stringArrayToMap l := by
  have hwf' : ∀ s ∈ l', WellFormed s := fun s hs => hwf s (hp.mem_iff.1 hs)
  have hnd' : (l'.map keyOf).Nodup := (hp.map keyOf).nodup_iff.2 hnd
  have key : ∀ (a : List String), (a.map keyOf).Nodup → ∀ s ∈ a,
      (assignAll a GoMap.empty).get (keyOf s) = some (valueOf s) := by
    intro a ha s hs
    obtain ⟨pre, post, hsplit⟩ := List.append_of_mem hs
    subst hsplit
    apply assignAll_get_last
    intro t ht hk
    rw [List.map_append, List.map_cons] at ha
    have h1 := (List.nodup_cons.1 (List.nodup_append.1 ha).2.1).1
    exact h1 (hk ▸ List.mem_map_of_mem keyOf ht)
  rw [stringArrayToMap, stringArrayToMap,
    loop_ok l' _ (fun s hs => not_malformed_of_wellFormed s (hwf' s hs)),
    loop_ok l _ (fun s hs => not_malformed_of_wellFormed s (hwf s hs))]
  congr 2
  apply GoMap.ext_get
  intro k
  by_cases hk : ∃ s ∈ l, keyOf s = k
  · obtain ⟨s, hs, hks⟩ := hk
    subst hks
    rw [key l hnd s hs, key l' hnd' s (hp.mem_iff.2 hs)]
  · have h1 : ∀ s ∈ l, keyOf s ≠ k := fun s hs hks => hk ⟨s, hs, hks⟩
    have h2 : ∀ s ∈ l', keyOf s ≠ k := fun s hs => h1 s (hp.mem_iff.1 hs)
    rw [(assignAll_get_none l k).2 h1, (assignAll_get_none l' k).2 h2]

/-! ## Lemmas on the counters of `includeFun` -/

theorem ofInt_val (x : Int) (h : -9223372036854775808 ≤ x ∧ x < 9223372036854775808) :
    (GoInt.ofInt x).val = x := by
  show wrapInt x = x
  unfold wrapInt
  omega

theorem countOf_of_get_some (m : GoMap GoInt) (k : String) (v : GoInt) (h : m.get k = some v) :
    countOf m k = v.val := by
  simp [countOf, GoMap.getZ, h]

theorem countOf_of_get_none (m : GoMap GoInt) (k : String) (h : m.get k = none) :
    countOf m k = 0 := by
  simp only [countOf, GoMap.getZ, h]
  rfl

theorem countOf_set_self (m : GoMap GoInt) (k : String) (v : GoInt) :
    countOf (m.set k v) k = v.val :=
  countOf_of_get_some _ _ _ (get_set_self m k v)

theorem countOf_set_of_ne (m : GoMap GoInt) (k k' : String) (v : GoInt) (h : k' ≠ k) :
    countOf (m.set k v) k' = countOf m k' := by
  simp only [countOf, GoMap.getZ, get_set_of_ne m k k' v h]

theorem countOf_inRange (m : GoMap GoInt) (k : String) :
    -9223372036854775808 ≤ countOf m k ∧ countOf m k < 9223372036854775808 :=
  (m.getZ k).inRange

/-- The counters after the tail of the closure, when the render leaves every
count as it found it: the count of `name` is one less, the others are kept. -/
theorem includeRender_countOf {D : Type} (render : Render D) (name : String) (data : D)
    (st : GoMap GoInt)
    (hrender : ∀ k, countOf (render name data st).includedNames k = countOf st k)
    (hlow : -9223372036854775808 < countOf st name) (k : String) :
    countOf (includeRender render name data st).includedNames k =
      if k = name then countOf st name - 1 else countOf st k := by
  by_cases hk : k = name
  · subst hk
    simp only [includeRender, if_true]
    rw [countOf_set_self]
    have h1 : ((render k data st).includedNames.getZ k).val = countOf st k := hrender k
    rw [h1]
    have h2 := countOf_inRange st k
    exact ofInt_val _ (by omega)
  · simp only [includeRender, if_neg hk]
    rw [countOf_set_of_ne _ _ _ _ hk]
    exact hrender k

/-- One invocation of the include function leaves every count as it found it,
when its render does. -/
theorem includeFun_countOf {D : Type} (render : Render D) (name : String) (data : D)
    (st : GoMap GoInt)
    (hrender : ∀ s k, countOf (render name data s).includedNames k = countOf s k)
    (k : String) :
    countOf (includeFun render name data st).includedNames k = countOf st k := by
  cases hget : st.get name with
  | none =>
    have h0 := countOf_of_get_none st name hget
    simp only [includeFun, hget]
    have h1 : countOf (st.set name (GoInt.ofInt 1)) name = 1 := by
      rw [countOf_set_self]; exact ofInt_val 1 (by omega)
    rw [includeRender_countOf render name data _ (hrender _) (by rw [h1]; omega) k]
    by_cases hk : k = name
    · subst hk; rw [if_pos rfl, h1, h0]; rfl
    · rw [if_neg hk, countOf_set_of_ne _ _ _ _ hk]
  | some v =>
    have h0 := countOf_of_get_some st name v hget
    by_cases hv : v.val > recursionMaxNums
    · simp only [includeFun, hget, if_pos hv]
    · simp only [includeFun, hget, if_neg hv]
      have hv' : v.val ≤ 1000 := by
        have : ¬ v.val > 1000 := hv
        omega
      have hr := v.inRange
      have h1 : countOf (st.set name (GoInt.ofInt (v.val + 1))) name = v.val + 1 := by
        rw [countOf_set_self]; exact ofInt_val _ (by omega)
      rw [includeRender_countOf render name data _ (hrender _) (by rw [h1]; omega) k]
      by_cases hk : k = name
      · subst hk; rw [if_pos rfl, h1, h0]; omega
      · rw [if_neg hk, countOf_set_of_ne _ _ _ _ hk]

/-- Nested invocations unwind: the render of a self-including template leaves
every count as it found it, whatever the depth, even when the nesting is cut
short by the recursion error. -/
theorem selfInclude_succ_includedNames (depth : Nat) (name : String) (st : GoMap GoInt) :
    (selfInclude (depth + 1) name () st).includedNames =
      (includeFun (selfInclude depth) name () st).includedNames := by
  simp only [selfInclude]
  cases (includeFun (selfInclude depth) name () st).err <;> rfl

theorem selfInclude_countOf (depth : Nat) (name : String) (st : GoMap GoInt) (k : String) :
    countOf (selfInclude depth name () st).includedNames k = countOf st k := by
  induction depth generalizing st k with
  | zero => rfl
  | succ n ih =>
    rw [selfInclude_succ_includedNames]
    exact includeFun_countOf (selfInclude n) name () st (fun s k => ih s k) k

/-- The guard lets an invocation through when the count is at most 1000. -/
theorem includeFun_of_le {D : Type} (render : Render D) (name : String) (data : D)
    (st : GoMap GoInt) (h : countOf st name ≤ 1000) :
    ∃ st1, countOf st1 name = countOf st name + 1 ∧
      (∀ k, k ≠ name → st1.get k = st.get k) ∧
      includeFun render name data st = includeRender render name data st1 := by
  cases hget : st.get name with
  | none =>
    refine ⟨st.set name (GoInt.ofInt 1), ?_, fun k hk => get_set_of_ne _ _ _ _ hk, ?_⟩
    · rw [countOf_set_self, countOf_of_get_none st name hget]; rfl
    · simp only [includeFun, hget]
  | some v =>
    have h0 := countOf_of_get_some st name v hget
    have hv : ¬ v.val > recursionMaxNums := by
      rw [h0] at h
      show ¬ v.val > 1000
      omega
    have hr := v.inRange
    refine ⟨st.set name (GoInt.ofInt (v.val + 1)), ?_, fun k hk => get_set_of_ne _ _ _ _ hk, ?_⟩
    · rw [countOf_set_self, h0]; exact ofInt_val _ (by rw [h0] at h; omega)
    · simp only [includeFun, hget, if_neg hv]

/-- The guard rejects an invocation when the count is above 1000. -/
theorem includeFun_of_gt {D : Type} (render : Render D) (name : String) (data : D)
    (st : GoMap GoInt) (h : countOf st name > 1000) :
    includeFun render name data st = ⟨st, "", some (Error.nestedReference name)⟩ := by
  cases hget : st.get name with
  | none =>
    rw [countOf_of_get_none st name hget] at h
    omega
  | some v =>
    have hv : v.val > recursionMaxNums := by
      rw [countOf_of_get_some st name v hget] at h
      exact h
    simp only [includeFun, hget, if_pos hv]

/-- A chain of `depth + 1` nested invocations of one identifier, entered at
count `c`, renders to the end when `c + depth ≤ 1000`. -/
theorem selfInclude_ok (depth : Nat) (name : String) (st : GoMap GoInt)
    (h : countOf st name + depth ≤ 1000) :
    (includeFun (selfInclude depth) name () st).text = "rendered" ∧
    (includeFun (selfInclude depth) name () st).err = none := by
  induction depth generalizing st with
  | zero =>
    obtain ⟨st1, _, _, heq⟩ := includeFun_of_le (selfInclude 0) name () st (by omega)
    rw [heq]
    exact ⟨rfl, rfl⟩
  | succ n ih =>
    obtain ⟨st1, hc, _, heq⟩ := includeFun_of_le (selfInclude (n + 1)) name () st (by omega)
    rw [heq]
    have := ih st1 (by rw [hc]; push_cast at h ⊢; omega)
    simp only [includeRender, selfInclude, this.2, this.1, and_self]

/-- A chain of `depth + 1` nested invocations of one identifier, entered at
count `c`, ends in an error when `c + depth ≥ 1001`: the recursion error of the
invocation the guard rejects, wrapped once by every render it passes through on
the way up. -/
theorem selfInclude_err (depth : Nat) (name : String) (st : GoMap GoInt)
    (h : countOf st name + depth ≥ 1001) :
    ∃ levels : Nat, (includeFun (selfInclude depth) name () st).err =
      some (Error.callingInclude^[levels] (Error.nestedReference name)) := by
  induction depth generalizing st with
  | zero =>
    rw [includeFun_of_gt _ name () st (by push_cast at h; omega)]
    exact ⟨0, rfl⟩
  | succ n ih =>
    by_cases hc : countOf st name > 1000
    · rw [includeFun_of_gt _ name () st hc]
      exact ⟨0, rfl⟩
    · obtain ⟨st1, hc1, _, heq⟩ := includeFun_of_le (selfInclude (n + 1)) name () st (by omega)
      rw [heq]
      obtain ⟨levels, hl⟩ := ih st1 (by rw [hc1]; push_cast at h ⊢; omega)
      refine ⟨levels + 1, ?_⟩
      simp only [includeRender, selfInclude, hl, Function.iterate_succ_apply']

/-! ## Lemmas on the execution driver -/

theorem shownPaths_cons_hidden {Y T : Type} (sys : Sys Y T) (path : String)
    (rest : List String) (h : HasPrefix (sys.Base path) "_" = true) :
    shownPaths sys (path :: rest) = shownPaths sys rest := by
  simp [shownPaths, List.filter_cons, h]

theorem shownPaths_cons_shown {Y T : Type} (sys : Sys Y T) (path : String)
    (rest : List String) (h : ¬ HasPrefix (sys.Base path) "_" = true) :
    shownPaths sys (path :: rest) = path :: shownPaths sys rest := by
  simp [shownPaths, List.filter_cons, h]

/-- The effects and the exit status of the second loop when every render of a
shown template succeeds. -/
theorem executeTemplates_ok {Y T : Type} (sys : Sys Y T) (t : T) (parameters : Params Y)
    (outputFile : String) (paths : List String) (st : GoMap GoInt)
    (hok : ∀ r ∈ renderAll sys t parameters (shownPaths sys paths) st, r.err = none) :
    (executeTemplates sys t parameters outputFile paths st).effects =
      (renderAll sys t parameters (shownPaths sys paths) st).map
        (fun r => dispatch sys outputFile r.text) ∧
    (executeTemplates sys t parameters outputFile paths st).exitCode = 0 := by
  induction paths generalizing st with
  | nil => exact ⟨rfl, rfl⟩
  | cons path rest ih =>
    by_cases hp : HasPrefix (sys.Base path) "_" = true
    · rw [shownPaths_cons_hidden sys path rest hp] at hok ⊢
      have := ih st hok
      simpa only [executeTemplates, hp, if_true] using this
    · rw [shownPaths_cons_shown sys path rest hp] at hok ⊢
      have herr : (sys.ExecuteTemplate t (sys.Base path) parameters st).err = none :=
        hok _ (by simp [renderAll])
      have := ih (sys.ExecuteTemplate t (sys.Base path) parameters st).includedNames
        (fun r hr => hok r (by simp only [renderAll, List.mem_cons]; exact Or.inr hr))
      simp only [executeTemplates, hp, herr, renderAll, List.map_cons]
      exact ⟨by rw [this.1]; rfl, this.2⟩

/-- The second loop stops with status 1 when the render of a shown template fails. -/
theorem executeTemplates_err {Y T : Type} (sys : Sys Y T) (t : T) (parameters : Params Y)
    (outputFile : String) (paths : List String) (st : GoMap GoInt)
    (hbad : ∃ r ∈ renderAll sys t parameters (shownPaths sys paths) st, r.err ≠ none) :
    (executeTemplates sys t parameters outputFile paths st).exitCode = 1 := by
  induction paths generalizing st with
  | nil => simp [shownPaths, renderAll] at hbad
  | cons path rest ih =>
    by_cases hp : HasPrefix (sys.Base path) "_" = true
    · rw [shownPaths_cons_hidden sys path rest hp] at hbad
      have := ih st hbad
      simpa only [executeTemplates, hp, if_true] using this
    · rw [shownPaths_cons_shown sys path rest hp] at hbad
      cases herr : (sys.ExecuteTemplate t (sys.Base path) parameters st).err with
      | some err => simp only [executeTemplates, hp, herr]; rfl
      | none =>
        obtain ⟨r, hr, hne⟩ := hbad
        simp only [renderAll, List.mem_cons] at hr
        rcases hr with h1 | h1
        · rw [h1] at hne; exact absurd herr hne
        · have := ih _ ⟨r, h1, hne⟩
          simp only [executeTemplates, hp, herr]
          exact this

/-- After a list of successful writes to one file, the file holds the last one. -/
theorem fileAfter_writes (name : String) (texts : List String) (content : Option String) :
    fileAfter name (texts.map (fun text => Effect.WriteFile name text none)) content =
      match texts.getLast? with
      | some text => some text
      | none => content := by
  induction texts generalizing content with
  | nil => rfl
  | cons a rest ih =>
    simp only [List.map_cons, fileAfter, if_true]
    rw [ih]
    cases rest with
    | nil => rfl
    | cons b rest' =>
      rw [List.getLast?_cons_cons]
      cases h : (b :: rest').getLast? with
      | none => simp [List.getLast?_eq_none_iff] at h
      | some text => rfl

/-- The errors of building the parameter tree and of reading or parsing a
template end the run with status 1. -/
theorem main_error_exit {Y T : Type} (sys : Sys Y T) (opts : Options) :
    (∀ err, (populateParameterMap sys.toEnv opts).2 = some err →
      main sys (opts, none) = errorAndExit err) ∧
    (∀ err, (populateParameterMap sys.toEnv opts).2 = none →
      readTemplates sys opts.TemplateFiles sys.base = .error err →
      main sys (opts, none) = errorAndExit err) := by
  constructor
  · intro err h
    rcases hp : populateParameterMap sys.toEnv opts with ⟨a, b⟩
    rw [hp] at h
    simp only at h
    subst h
    simp only [main, hp]
  · intro err h hr
    rcases hp : populateParameterMap sys.toEnv opts with ⟨a, b⟩
    rw [hp] at h
    simp only at h
    subst h
    simp only [main, hp, hr]

/-! ## Claims on `stringArrayToMap` -/

/-- C1: `stringArrayToMap` returns an error if and only if some string of the
list has no `=`, or an empty key before its first `=`, or an empty value after
it; on error the returned map is nil, and without error a map is returned. -/
theorem stringArrayToMap_error_iff (kvStrings : List String) :
    ((stringArrayToMap kvStrings).2 ≠ none ↔
      ∃ s ∈ kvStrings, ('=' ∉ s.data ∨ keyOf s = "" ∨ valueOf s = "")) ∧
    ((stringArrayToMap kvStrings).2 ≠ none → (stringArrayToMap kvStrings).1 = none) ∧
    ((stringArrayToMap kvStrings).2 = none → (stringArrayToMap kvStrings).1 ≠ none) := by
  by_cases h : ∃ s ∈ kvStrings, Malformed s
  · obtain ⟨e, he⟩ := loop_err kvStrings GoMap.empty h
    have h' : ∃ s ∈ kvStrings, ('=' ∉ s.data ∨ keyOf s = "" ∨ valueOf s = "") := h
    simp [stringArrayToMap, he, h']
  · have hall : ∀ s ∈ kvStrings, ¬ Malformed s := fun s hs hm => h ⟨s, hs, hm⟩
    have h' : ¬ ∃ s ∈ kvStrings, ('=' ∉ s.data ∨ keyOf s = "" ∨ valueOf s = "") := h
    rw [stringArrayToMap, loop_ok kvStrings _ hall]
    simp only [ne_eq, not_true_eq_false, false_iff, false_implies, true_and]
    exact ⟨h', fun _ => by simp⟩

/-- C2: on a well-formed list `stringArrayToMap` returns a map whose key set is
exactly the set of keys seen, and which maps the key of every string that no
later string overrides to the whole substring after that string's first `=`. -/
theorem stringArrayToMap_wellFormed (kvStrings : List String)
    (h : ∀ s ∈ kvStrings, WellFormed s) :
    ∃ m : GoMap String, stringArrayToMap kvStrings = (some m, none) ∧
      (∀ k, k ∈ m.keys ↔ ∃ s ∈ kvStrings, keyOf s = k) ∧
      (∀ pre s post, kvStrings = pre ++ s :: post → (∀ t ∈ post, keyOf t ≠ keyOf s) →
        m.get (keyOf s) = some (valueOf s)) := by
  refine ⟨assignAll kvStrings GoMap.empty, ?_, ?_, ?_⟩
  · exact loop_ok kvStrings _ (fun s hs => not_malformed_of_wellFormed s (h s hs))
  · intro k
    rw [mem_keys_iff_get, assignAll_keys]
    simp [get_empty]
  · intro pre s post hk hpost
    subst hk
    exact assignAll_get_last pre post s _ hpost

/-- Witness of C2 on `["k=a=b", "j=1", "k=c"]`: the keys are `k` and `j`, the
last `k` wins, and a later `=` stays in the value. -/
theorem stringArrayToMap_wellFormed_witness :
    ∃ m : GoMap String, stringArrayToMap ["k=a=b", "j=1=2", "k=c"] = (some m, none) ∧
      (∀ k, k ∈ m.keys ↔ ∃ s ∈ ["k=a=b", "j=1=2", "k=c"], keyOf s = k) ∧
      (∀ pre s post, ["k=a=b", "j=1=2", "k=c"] = pre ++ s :: post →
        (∀ t ∈ post, keyOf t ≠ keyOf s) → m.get (keyOf s) = some (valueOf s)) :=
  stringArrayToMap_wellFormed ["k=a=b", "j=1=2", "k=c"] (by decide)

/-! ## Claims on `populateParameterMap` -/

/-- C3: when both lists are well-formed and every referenced file reads and
parses, `populateParameterMap` returns a root map whose only key is `Values`;
the map under it has exactly the inline keys and the file keys, maps every file
key to the parsed content of its file, and every inline key that is not a file
key to its raw string. -/
theorem populateParameterMap_ok {Y : Type} (env : Env Y) (hr : RangeOK env) (opts : Options)
    (hv : ∀ s ∈ opts.Values, WellFormed s) (hf : ∀ s ∈ opts.ValueFiles, WellFormed s)
    (hfiles : ∀ s ∈ opts.ValueFiles, ∃ y, loadValuesFile env (valueOf s) = .ok y) :
    ∃ (root : GoMap (GoMap (Value Y))) (valueMap : GoMap (Value Y)),
      populateParameterMap env opts = (some root, none) ∧
      (∀ k, k ∈ root.keys ↔ k = "Values") ∧
      root.get "Values" = some valueMap ∧
      (∀ k, k ∈ valueMap.keys ↔
        (∃ s ∈ opts.Values, keyOf s = k) ∨ (∃ s ∈ opts.ValueFiles, keyOf s = k)) ∧
      (∀ pre s post, opts.ValueFiles = pre ++ s :: post → (∀ t ∈ post, keyOf t ≠ keyOf s) →
        ∃ y, loadValuesFile env (valueOf s) = .ok y ∧
          valueMap.get (keyOf s) = some (Value.doc y)) ∧
      (∀ pre s post, opts.Values = pre ++ s :: post → (∀ t ∈ post, keyOf t ≠ keyOf s) →
        (∀ t ∈ opts.ValueFiles, keyOf t ≠ keyOf s) →
        valueMap.get (keyOf s) = some (Value.str (valueOf s))) := by
  have h1 := loop_ok opts.Values GoMap.empty (fun s hs => not_malformed_of_wellFormed s (hv s hs))
  have h2 := loop_ok opts.ValueFiles GoMap.empty
    (fun s hs => not_malformed_of_wellFormed s (hf s hs))
  have hload : ∀ k path, (assignAll opts.ValueFiles GoMap.empty).get k = some path →
      ∃ y, loadValuesFile env path = .ok y := by
    intro k path hk
    obtain ⟨pre, s, post, hl, _, hval, _⟩ := assignAll_get_some _ k path hk
    rw [← hval]
    exact hfiles s (by rw [hl]; simp)
  obtain ⟨vm, hres, hF, hI⟩ := populate_of_maps env hr opts _ _ h1 h2 hload
  refine ⟨(GoMap.empty).set "Values" vm, vm, hres, ?_, get_set_self _ _ _, ?_, ?_, ?_⟩
  · intro k
    rw [mem_keys_iff_get]
    by_cases hk : k = "Values"
    · subst hk; simp [get_set_self]
    · simp [get_set_of_ne _ _ _ _ hk, get_empty, hk]
  · intro k
    rw [mem_keys_iff_get]
    cases hfk : (assignAll opts.ValueFiles GoMap.empty).get k with
    | none =>
      have hnf := (assignAll_get_none _ k).1 hfk
      rw [hI k hfk]
      cases hik : (assignAll opts.Values GoMap.empty).get k with
      | none =>
        have hni := (assignAll_get_none _ k).1 hik
        simp only [Option.map_none', ne_eq, not_true_eq_false, false_iff]
        rintro (⟨s, hs, hk⟩ | ⟨s, hs, hk⟩)
        · exact hni s hs hk
        · exact hnf s hs hk
      | some v =>
        obtain ⟨pre, s, post, hl, hks, _, _⟩ := assignAll_get_some _ k v hik
        simp only [Option.map_some', ne_eq, not_false_eq_true, true_iff, reduceCtorEq]
        exact Or.inl ⟨s, by rw [hl]; simp, hks⟩
    | some path =>
      obtain ⟨y, _, hy⟩ := hF k path hfk
      obtain ⟨pre, s, post, hl, hks, _, _⟩ := assignAll_get_some _ k path hfk
      rw [hy]
      simp only [ne_eq, not_false_eq_true, true_iff, reduceCtorEq]
      exact Or.inr ⟨s, by rw [hl]; simp, hks⟩
  · intro pre s post hl hpost
    have hg : (assignAll opts.ValueFiles GoMap.empty).get (keyOf s) = some (valueOf s) := by
      rw [hl]; exact assignAll_get_last pre post s _ hpost
    exact hF _ _ hg
  · intro pre s post hl hpost hnf
    have hg : (assignAll opts.Values GoMap.empty).get (keyOf s) = some (valueOf s) := by
      rw [hl]; exact assignAll_get_last pre post s _ hpost
    rw [hI _ ((assignAll_get_none _ _).2 hnf), hg]
    rfl

/-- Witness of C3: `key3` is set inline and from `good.yaml`. -/
theorem populateParameterMap_ok_witness :
    ∃ (root : GoMap (GoMap (Value String))) (valueMap : GoMap (Value String)),
      populateParameterMap sampleEnv ⟨[], ["key1=value1", "key3=inline"], ["key3=good.yaml"], ""⟩
        = (some root, none) ∧
      (∀ k, k ∈ root.keys ↔ k = "Values") ∧
      root.get "Values" = some valueMap ∧
      (∀ k, k ∈ valueMap.keys ↔
        (∃ s ∈ ["key1=value1", "key3=inline"], keyOf s = k) ∨
        (∃ s ∈ ["key3=good.yaml"], keyOf s = k)) ∧
      (∀ pre s post, ["key3=good.yaml"] = pre ++ s :: post → (∀ t ∈ post, keyOf t ≠ keyOf s) →
        ∃ y, loadValuesFile sampleEnv (valueOf s) = .ok y ∧
          valueMap.get (keyOf s) = some (Value.doc y)) ∧
      (∀ pre s post, ["key1=value1", "key3=inline"] = pre ++ s :: post →
        (∀ t ∈ post, keyOf t ≠ keyOf s) →
        (∀ t ∈ ["key3=good.yaml"], keyOf t ≠ keyOf s) →
        valueMap.get (keyOf s) = some (Value.str (valueOf s))) :=
  populateParameterMap_ok sampleEnv (rangeOK_of_sortedRange sampleEnv rfl)
    ⟨[], ["key1=value1", "key3=inline"], ["key3=good.yaml"], ""⟩ (by decide) (by decide)
    (by
      intro s hs
      rw [List.mem_singleton.1 hs]
      exact ⟨"foo: bar", rfl⟩)

/-- C4 as stated fails: with `--set-from-file k=missing.yaml,k=good.yaml` the
first pair references a file that cannot be read, yet the later pair overrides
it, the file is never opened and a tree is returned. -/
theorem populateParameterMap_unread_file_ignored :
    (∃ s ∈ (Options.mk [] [] ["k=missing.yaml", "k=good.yaml"] "").ValueFiles,
      loadValuesFile sampleEnv (valueOf s) =
        .error (Error.readingValuesFile "no such file")) ∧
    (populateParameterMap sampleEnv ⟨[], [], ["k=missing.yaml", "k=good.yaml"], ""⟩).2 = none ∧
    (populateParameterMap sampleEnv ⟨[], [], ["k=missing.yaml", "k=good.yaml"], ""⟩).1 ≠ none := by
  refine ⟨⟨"k=missing.yaml", by decide, rfl⟩, by decide, by decide⟩

/-- C4 (amended): if the file referenced by a pair of the value-file list that
no later pair with the same key overrides cannot be read, or does not parse,
`populateParameterMap` returns an error and the nil map. -/
theorem populateParameterMap_file_error {Y : Type} (env : Env Y) (hr : RangeOK env)
    (opts : Options) (pre : List String) (s : String) (post : List String)
    (hsplit : opts.ValueFiles = pre ++ s :: post)
    (hlast : ∀ t ∈ post, keyOf t ≠ keyOf s)
    (hbad : ∀ y, loadValuesFile env (valueOf s) ≠ .ok y) :
    ∃ err, populateParameterMap env opts = (none, some err) := by
  rcases stringArrayToMap_cases opts.Values with h1 | ⟨err, h1⟩
  · rcases stringArrayToMap_cases opts.ValueFiles with h2 | ⟨err, h2⟩
    · refine populate_err_of_maps env hr opts _ _ h1 h2 ⟨keyOf s, valueOf s, ?_, hbad⟩
      rw [hsplit]
      exact assignAll_get_last pre post s _ hlast
    · exact ⟨err, by simp only [populateParameterMap, h1, h2]⟩
  · exact ⟨err, by simp only [populateParameterMap, h1]⟩

/-- Witness of the amended C4: the missing file is the last one given for `k`. -/
theorem populateParameterMap_file_error_witness :
    ∃ err, populateParameterMap sampleEnv
      ⟨[], ["a=1"], ["k=good.yaml", "k=missing.yaml"], ""⟩ = (none, some err) :=
  populateParameterMap_file_error sampleEnv (rangeOK_of_sortedRange sampleEnv rfl)
    ⟨[], ["a=1"], ["k=good.yaml", "k=missing.yaml"], ""⟩
    ["k=good.yaml"] "k=missing.yaml" [] rfl (by decide)
    (by intro y h; exact Except.noConfusion h)

/-- C5 as stated fails. With a repeated key the last pair wins, so swapping
`--set k=1,k=2` changes the value stored under `k`; a malformed list fails
with an error that names its first malformed string, so swapping changes the
error; and when two files cannot be read the error names the first one the
range over the file map visits, which Go is free to pick either way. -/
theorem populateParameterMap_order_matters :
    (["k=2", "k=1"].Perm ["k=1", "k=2"] ∧
      populateParameterMap sampleEnv ⟨[], ["k=2", "k=1"], [], ""⟩ ≠
        populateParameterMap sampleEnv ⟨[], ["k=1", "k=2"], [], ""⟩) ∧
    (["b", "a"].Perm ["a", "b"] ∧
      populateParameterMap sampleEnv ⟨[], ["b", "a"], [], ""⟩ ≠
        populateParameterMap sampleEnv ⟨[], ["a", "b"], [], ""⟩) ∧
    (["b=m2.yaml", "a=m1.yaml"].Perm ["a=m1.yaml", "b=m2.yaml"] ∧
      RangeOK missingEnv ∧ RangeOK (missingEnv.withRange reversedRange) ∧
      populateParameterMap (missingEnv.withRange reversedRange)
          ⟨[], [], ["b=m2.yaml", "a=m1.yaml"], ""⟩ =
        (none, some (Error.readingValuesFile "open m2.yaml: no such file or directory")) ∧
      populateParameterMap missingEnv ⟨[], [], ["a=m1.yaml", "b=m2.yaml"], ""⟩ =
        (none, some (Error.readingValuesFile "open m1.yaml: no such file or directory"))) := by
  refine ⟨⟨List.Perm.swap _ _ _, by decide⟩, ⟨List.Perm.swap _ _ _, by decide⟩,
    List.Perm.swap _ _ _, rangeOK_of_sortedRange _ rfl, rangeOK_of_reversedRange _ rfl,
    by decide, by decide⟩

/-- C5 (amended): when the inline list and the file list are well-formed and
neither repeats a key, then for every permutation of the inline list, every
permutation of the file list and whatever orders the ranges over the maps take,
`populateParameterMap` returns the same parameter tree as for the original
order (nil in both when it fails) and fails exactly when it fails for the
original order; an error it returns is that of a file of the list that does
not load. -/
theorem populateParameterMap_perm {Y : Type} (env : Env Y)
    (order : GoMap String → List (String × String))
    (hr : RangeOK env) (hr' : RangeOK (env.withRange order))
    (opts : Options) (values files : List String)
    (hpv : values.Perm opts.Values) (hpf : files.Perm opts.ValueFiles)
    (hv : ∀ s ∈ opts.Values, WellFormed s) (hf : ∀ s ∈ opts.ValueFiles, WellFormed s)
    (hdv : (opts.Values.map keyOf).Nodup) (hdf : (opts.ValueFiles.map keyOf).Nodup) :
    (populateParameterMap (env.withRange order)
        ⟨opts.TemplateFiles, values, files, opts.OutputFile⟩).1 =
      (populateParameterMap env opts).1 ∧
    ((populateParameterMap (env.withRange order)
        ⟨opts.TemplateFiles, values, files, opts.OutputFile⟩).2 = none ↔
      (populateParameterMap env opts).2 = none) ∧
    (∀ err, (populateParameterMap (env.withRange order)
        ⟨opts.TemplateFiles, values, files, opts.OutputFile⟩).2 = some err →
      ∃ s ∈ opts.ValueFiles, loadValuesFile env (valueOf s) = .error err) ∧
    (∀ err, (populateParameterMap env opts).2 = some err →
      ∃ s ∈ opts.ValueFiles, loadValuesFile env (valueOf s) = .error err) := by
  have h1 := loop_ok opts.Values GoMap.empty (fun s hs => not_malformed_of_wellFormed s (hv s hs))
  have h2 := loop_ok opts.ValueFiles GoMap.empty
    (fun s hs => not_malformed_of_wellFormed s (hf s hs))
  have h1' : stringArrayToMap values = (some (assignAll opts.Values GoMap.empty), none) :=
    (stringArrayToMap_perm _ _ hpv hv hdv).trans h1
  have h2' : stringArrayToMap files = (some (assignAll opts.ValueFiles GoMap.empty), none) :=
    (stringArrayToMap_perm _ _ hpf hf hdf).trans h2
  have hsrc : ∀ k path err, (assignAll opts.ValueFiles GoMap.empty).get k = some path →
      loadValuesFile env path = .error err →
      ∃ s ∈ opts.ValueFiles, loadValuesFile env (valueOf s) = .error err := by
    intro k path err hk hl
    obtain ⟨pre, s, post, hsplit, _, hval, _⟩ := assignAll_get_some _ k path hk
    exact ⟨s, by rw [hsplit]; simp, by rw [hval]; exact hl⟩
  refine ⟨?_, ?_, ?_, ?_⟩
  · by_cases hall : ∀ k path, (assignAll opts.ValueFiles GoMap.empty).get k = some path →
        ∃ y, loadValuesFile env path = .ok y
    · obtain ⟨vm, hres, hF, hI⟩ := populate_of_maps env hr opts _ _ h1 h2 hall
      obtain ⟨vm', hres', hF', hI'⟩ := populate_of_maps (env.withRange order) hr'
        ⟨opts.TemplateFiles, values, files, opts.OutputFile⟩ _ _ h1' h2' hall
      have hvm : vm' = vm := by
        apply GoMap.ext_get
        intro k
        cases hk : (assignAll opts.ValueFiles GoMap.empty).get k with
        | none => rw [hI k hk, hI' k hk]
        | some path =>
          obtain ⟨y, hy, hg⟩ := hF k path hk
          obtain ⟨y', hy', hg'⟩ := hF' k path hk
          have hyy : y' = y := Except.ok.inj (hy'.symm.trans hy)
          rw [hg, hg', hyy]
      rw [hres, hres', hvm]
    · have hbad : ∃ k path, (assignAll opts.ValueFiles GoMap.empty).get k = some path ∧
          ∀ y, loadValuesFile env path ≠ .ok y := by
        by_contra hcon
        apply hall
        intro k path hk
        by_contra hno
        exact hcon ⟨k, path, hk, fun y hy => hno ⟨y, hy⟩⟩
      obtain ⟨e, he⟩ := populate_err_of_maps env hr opts _ _ h1 h2 hbad
      obtain ⟨e', he'⟩ := populate_err_of_maps (env.withRange order) hr'
        ⟨opts.TemplateFiles, values, files, opts.OutputFile⟩ _ _ h1' h2' hbad
      rw [he, he']
  · by_cases hall : ∀ k path, (assignAll opts.ValueFiles GoMap.empty).get k = some path →
        ∃ y, loadValuesFile env path = .ok y
    · obtain ⟨vm, hres, _, _⟩ := populate_of_maps env hr opts _ _ h1 h2 hall
      obtain ⟨vm', hres', _, _⟩ := populate_of_maps (env.withRange order) hr'
        ⟨opts.TemplateFiles, values, files, opts.OutputFile⟩ _ _ h1' h2' hall
      rw [hres, hres']
    · have hbad : ∃ k path, (assignAll opts.ValueFiles GoMap.empty).get k = some path ∧
          ∀ y, loadValuesFile env path ≠ .ok y := by
        by_contra hcon
        apply hall
        intro k path hk
        by_contra hno
        exact hcon ⟨k, path, hk, fun y hy => hno ⟨y, hy⟩⟩
      obtain ⟨e, he⟩ := populate_err_of_maps env hr opts _ _ h1 h2 hbad
      obtain ⟨e', he'⟩ := populate_err_of_maps (env.withRange order) hr'
        ⟨opts.TemplateFiles, values, files, opts.OutputFile⟩ _ _ h1' h2' hbad
      rw [he, he']
      simp
  · intro err herr
    obtain ⟨k, path, hk, hl⟩ := populate_err_source (env.withRange order) hr'
      ⟨opts.TemplateFiles, values, files, opts.OutputFile⟩ _ _ h1' h2' err herr
    exact hsrc k path err hk hl
  · intro err herr
    obtain ⟨k, path, hk, hl⟩ := populate_err_source env hr opts _ _ h1 h2 err herr
    exact hsrc k path err hk hl

/-- Witness of the amended C5: both lists swapped and the maps ranged in the
opposite order; every file loads and the tree is built. -/
theorem populateParameterMap_perm_witness :
    ((populateParameterMap (sampleEnv.withRange reversedRange)
        ⟨[], ["b=2", "a=1"], ["d=good.yaml", "c=good.yaml"], ""⟩).1 =
      (populateParameterMap sampleEnv
        ⟨[], ["a=1", "b=2"], ["c=good.yaml", "d=good.yaml"], ""⟩).1 ∧
    ((populateParameterMap (sampleEnv.withRange reversedRange)
        ⟨[], ["b=2", "a=1"], ["d=good.yaml", "c=good.yaml"], ""⟩).2 = none ↔
      (populateParameterMap sampleEnv
        ⟨[], ["a=1", "b=2"], ["c=good.yaml", "d=good.yaml"], ""⟩).2 = none) ∧
    (∀ err, (populateParameterMap (sampleEnv.withRange reversedRange)
        ⟨[], ["b=2", "a=1"], ["d=good.yaml", "c=good.yaml"], ""⟩).2 = some err →
      ∃ s ∈ ["c=good.yaml", "d=good.yaml"],
        loadValuesFile sampleEnv (valueOf s) = .error err) ∧
    (∀ err, (populateParameterMap sampleEnv
        ⟨[], ["a=1", "b=2"], ["c=good.yaml", "d=good.yaml"], ""⟩).2 = some err →
      ∃ s ∈ ["c=good.yaml", "d=good.yaml"],
        loadValuesFile sampleEnv (valueOf s) = .error err)) ∧
    (populateParameterMap sampleEnv
      ⟨[], ["a=1", "b=2"], ["c=good.yaml", "d=good.yaml"], ""⟩).1 ≠ none ∧
    (populateParameterMap sampleEnv
      ⟨[], ["a=1", "b=2"], ["c=good.yaml", "d=good.yaml"], ""⟩).2 = none :=
  ⟨populateParameterMap_perm sampleEnv reversedRange
    (rangeOK_of_sortedRange sampleEnv rfl) (rangeOK_of_reversedRange _ rfl)
    ⟨[], ["a=1", "b=2"], ["c=good.yaml", "d=good.yaml"], ""⟩
    ["b=2", "a=1"] ["d=good.yaml", "c=good.yaml"]
    (List.Perm.swap _ _ _) (List.Perm.swap _ _ _) (by decide) (by decide) (by decide) (by decide),
    by decide, by decide⟩

/-! ## Claims on `includeFun` -/

/-- C6 as stated fails. With a count of 1000, that is with 1000 invocations of
the identifier active, the next invocation (the 1001st) is not rejected: the
guard tests `v > 1000`, so it renders. Starting from the empty counter, a chain
of 1001 nested invocations of `t` renders to the end without error. -/
theorem includeFun_1001st_renders :
    ((includeFun plainRender "t" () ((GoMap.empty).set "t" (GoInt.ofInt 1000))).err = none ∧
      (includeFun plainRender "t" () ((GoMap.empty).set "t" (GoInt.ofInt 1000))).text
        = "rendered") ∧
    ((includeFun (selfInclude 1000) "t" () GoMap.empty).err = none ∧
      (includeFun (selfInclude 1000) "t" () GoMap.empty).text = "rendered") := by
  refine ⟨⟨by decide, by decide⟩, ?_⟩
  have h := selfInclude_ok 1000 "t" GoMap.empty (by decide)
  exact ⟨h.2, h.1⟩

/-- C6 (amended): an include invocation made while at most 1000 invocations of
the identifier are active passes the guard, counts itself and renders the
template; an invocation made while more than 1000 are active, so the 1002nd
nested one, fails with the recursion error, without rendering. -/
theorem includeFun_limit {D : Type} (render : Render D) (name : String) (data : D)
    (st : GoMap GoInt) :
    (countOf st name ≤ 1000 →
      ∃ st1, countOf st1 name = countOf st name + 1 ∧
        (∀ k, k ≠ name → st1.get k = st.get k) ∧
        (includeFun render name data st).text = (render name data st1).text ∧
        (includeFun render name data st).err = (render name data st1).err) ∧
    (countOf st name ≥ 1001 →
      ∀ render' : Render D, includeFun render' name data st =
        ⟨st, "", some (Error.nestedReference name)⟩) := by
  constructor
  · intro h
    obtain ⟨st1, hc, hk, heq⟩ := includeFun_of_le render name data st h
    exact ⟨st1, hc, hk, by rw [heq]; rfl, by rw [heq]; rfl⟩
  · intro h render'
    exact includeFun_of_gt render' name data st (by omega)

/-- C7: with no entry for the identifier the closure sets its counter to 1 and
renders; with an entry above 1000 it returns the empty string and the error
naming the identifier, whatever the render, and keeps the counters; with any
other entry it adds one to it and renders in that state. -/
theorem includeFun_guard {D : Type} (render : Render D) (name : String) (data : D)
    (st : GoMap GoInt) :
    (st.get name = none →
      ∃ st1 : GoMap GoInt, (∃ one, st1.get name = some one ∧ one.val = 1) ∧
        (∀ k, k ≠ name → st1.get k = st.get k) ∧
        includeFun render name data st = includeRender render name data st1) ∧
    (∀ v, st.get name = some v → v.val > 1000 →
      ∀ render' : Render D, includeFun render' name data st =
        ⟨st, "", some (Error.nestedReference name)⟩) ∧
    (∀ v, st.get name = some v → v.val ≤ 1000 →
      ∃ st1 : GoMap GoInt, (∃ next, st1.get name = some next ∧ next.val = v.val + 1) ∧
        (∀ k, k ≠ name → st1.get k = st.get k) ∧
        includeFun render name data st = includeRender render name data st1) := by
  refine ⟨?_, ?_, ?_⟩
  · intro hget
    refine ⟨st.set name (GoInt.ofInt 1), ⟨GoInt.ofInt 1, get_set_self _ _ _, rfl⟩,
      fun k hk => get_set_of_ne _ _ _ _ hk, ?_⟩
    simp only [includeFun, hget]
  · intro v hget hv render'
    have hv' : v.val > recursionMaxNums := hv
    simp only [includeFun, hget, if_pos hv']
  · intro v hget hv
    have hv' : ¬ v.val > recursionMaxNums := by
      show ¬ v.val > 1000
      omega
    have hr := v.inRange
    refine ⟨st.set name (GoInt.ofInt (v.val + 1)),
      ⟨GoInt.ofInt (v.val + 1), get_set_self _ _ _, ofInt_val _ (by omega)⟩,
      fun k hk => get_set_of_ne _ _ _ _ hk, ?_⟩
    simp only [includeFun, hget, if_neg hv']

/-- C8: when the render step leaves every count as it found it, an include
invocation leaves every count, that of the included identifier too, as it found
it (an absent entry counting as 0), whatever the render returned and whether or
not the guard rejected the call; so from the empty counter every count is zero
afterwards. -/
theorem includeFun_releases {D : Type} (render : Render D) (name : String) (data : D)
    (st : GoMap GoInt)
    (hrender : ∀ s k, countOf (render name data s).includedNames k = countOf s k) :
    (∀ k, countOf (includeFun render name data st).includedNames k = countOf st k) ∧
    (st = GoMap.empty → ∀ k, countOf (includeFun render name data st).includedNames k = 0) := by
  refine ⟨fun k => includeFun_countOf render name data st hrender k, ?_⟩
  intro hst k
  rw [includeFun_countOf render name data st hrender k, hst]
  exact countOf_of_get_none _ _ (get_empty k)

/-- Witness of C8: 1500 nested self-inclusions from the empty counter end in the
recursion error, and every count is zero once they have unwound. -/
theorem includeFun_releases_witness :
    (∀ k, countOf (includeFun (selfInclude 1500) "t" () GoMap.empty).includedNames k
      = countOf GoMap.empty k) ∧
    ((GoMap.empty : GoMap GoInt) = GoMap.empty →
      ∀ k, countOf (includeFun (selfInclude 1500) "t" () GoMap.empty).includedNames k = 0) :=
  includeFun_releases (selfInclude 1500) "t" () GoMap.empty
    (fun s k => selfInclude_countOf 1500 "t" s k)

/-! ## Claims on the execution driver -/

/-- C9: when every render succeeds, the outputs the second loop of `main`
dispatches are the renders of the paths whose base name does not begin with
`_`, in input order, and the run ends with status 0; with an output file whose
writes succeed, the file ends up holding the render of the last such template
only (and its former content when there is none). -/
theorem executeTemplates_outputs {Y T : Type} (sys : Sys Y T) (t : T) (parameters : Params Y)
    (outputFile : String) (paths : List String) (st : GoMap GoInt)
    (hok : ∀ r ∈ renderAll sys t parameters (shownPaths sys paths) st, r.err = none) :
    (executeTemplates sys t parameters outputFile paths st).effects =
      (renderAll sys t parameters (shownPaths sys paths) st).map
        (fun r => dispatch sys outputFile r.text) ∧
    (executeTemplates sys t parameters outputFile paths st).exitCode = 0 ∧
    (outputFile.length > 0 → (∀ text, sys.WriteFile outputFile text = none) →
      ∀ content, fileAfter outputFile
        (executeTemplates sys t parameters outputFile paths st).effects content =
          match ((renderAll sys t parameters (shownPaths sys paths) st).map
            (fun r => r.text)).getLast? with
          | some text => some text
          | none => content) := by
  obtain ⟨h1, h2⟩ := executeTemplates_ok sys t parameters outputFile paths st hok
  refine ⟨h1, h2, ?_⟩
  intro hlen hwrite content
  rw [h1, ← fileAfter_writes outputFile _ content, List.map_map]
  congr 1
  apply List.map_congr_left
  intro r _
  simp [dispatch, hlen, hwrite]

/-- Witness of C9: `a.tmpl`, `_lib.tmpl` and `b.tmpl` with `-o out.txt`. -/
theorem executeTemplates_outputs_witness :
    (executeTemplates sampleSys () none "out.txt" ["a.tmpl", "_lib.tmpl", "b.tmpl"]
        GoMap.empty).effects =
      (renderAll sampleSys () none (shownPaths sampleSys ["a.tmpl", "_lib.tmpl", "b.tmpl"])
        GoMap.empty).map (fun r => dispatch sampleSys "out.txt" r.text) ∧
    (executeTemplates sampleSys () none "out.txt" ["a.tmpl", "_lib.tmpl", "b.tmpl"]
        GoMap.empty).exitCode = 0 ∧
    ("out.txt".length > 0 → (∀ text, sampleSys.WriteFile "out.txt" text = none) →
      ∀ content, fileAfter "out.txt"
        (executeTemplates sampleSys () none "out.txt" ["a.tmpl", "_lib.tmpl", "b.tmpl"]
          GoMap.empty).effects content =
          match ((renderAll sampleSys () none
            (shownPaths sampleSys ["a.tmpl", "_lib.tmpl", "b.tmpl"]) GoMap.empty).map
            (fun r => r.text)).getLast? with
          | some text => some text
          | none => content) :=
  executeTemplates_outputs sampleSys () none "out.txt" ["a.tmpl", "_lib.tmpl", "b.tmpl"]
    GoMap.empty (by decide)

/-- C10 at its failing input: the only template renders, the output file cannot
be written, `os.WriteFile` returns an error, and the run prints no error and
ends with status 0. -/
theorem main_ignores_write_error :
    sampleSys.WriteFile "/etc/out.txt" "a.tmpl" = some "permission denied" ∧
    main sampleSys (⟨["a.tmpl"], [], [], "/etc/out.txt"⟩, none) =
      ⟨[Effect.WriteFile "/etc/out.txt" "a.tmpl" (some "permission denied")], 0⟩ ∧
    fileAfter "/etc/out.txt"
      (main sampleSys (⟨["a.tmpl"], [], [], "/etc/out.txt"⟩, none)).effects none = none := by
  decide

end GoTemplate
